import Mathlib

set_option maxRecDepth 4000

/-!
# Verification of the 100-prisoners Monte Carlo simulator (`src/main.rs`)

Shallow embedding of the Rust program. Randomness is made explicit: every
place the program draws from the thread-local RNG is parameterised by an
entropy oracle (`Nat → Nat`, raw random values reduced into the requested
range exactly as `gen_range(0..=i)` does). Fallible operations (slice
indexing, `Vec::pop().unwrap()`) return `Option`; `none` models a panic.
-/

/-- `const NUM_TRIES: usize = 1000000;` -/
def NUM_TRIES : Nat := 1000000

/-- `const NUM_BOXES: usize = 100;` -/
def NUM_BOXES : Nat := 100

/-- `const NUM_PICKS: usize = 50;` -/
def NUM_PICKS : Nat := 50

/-- `type Boxes = Vec<usize>;` -/
abbrev Boxes := List Nat

/-- `self.swap(i, j)` on a slice: exchange positions `i` and `j`;
out-of-range indices leave the list unchanged (the shuffle only calls it
in range). -/
def swapList (l : Boxes) (i j : Nat) : Boxes :=
  match l[i]?, l[j]? with
  | some a, some b => (l.set i b).set j a
  | _, _ => l

/-- The Fisher-Yates loop of `rand`'s `SliceRandom::shuffle`:
`for i in (1..len).rev() { self.swap(i, gen_range(0..=i)) }`.
`f i % (i + 1)` is the value `gen_range(0..=i)` drawn from oracle `f`. -/
def shuffleAux (f : Nat → Nat) : Nat → Boxes → Boxes
  | 0, l => l
  | i + 1, l => shuffleAux f i (swapList l (i + 1) (f (i + 1) % (i + 2)))

/-- `boxes.shuffle(&mut rng)`. -/
def shuffle (f : Nat → Nat) (l : Boxes) : Boxes :=
  shuffleAux f (l.length - 1) l

/-- `fn make_boxes() -> Boxes`: collect `0..NUM_BOXES`, then shuffle.
`f` is the entropy consumed from the thread rng. -/
def make_boxes (f : Nat → Nat) : Boxes :=
  shuffle f (List.range NUM_BOXES)

/-- `trait Strategy`: `new` builds the per-searcher state, `next_index`
consumes the state and the contents of the last opened box and yields the
next box index (or `none` for a panic, as in `pop().unwrap()`). -/
structure Strategy (σ : Type) where
  new : Nat → σ
  next_index : σ → Option Nat → Option (Nat × σ)

/-- `LoopStrategy`: state is the prisoner's own index; first call returns
it, every later call returns the contents of the last opened box. -/
def LoopStrategy : Strategy Nat where
  new := fun index => index
  next_index := fun st last =>
    some ((match last with
           | some last_inside => last_inside
           | none => st), st)

/-- `Vec::pop()`: remove and return the last element. -/
def vecPop (l : Boxes) : Option (Nat × Boxes) :=
  match l.getLast? with
  | none => none
  | some x => some (x, l.dropLast)

/-- `RandomStrategy`: its state is a private shuffled `try_queue` built by
`make_boxes` with entropy `f`; `next_index` pops off the back and unwraps. -/
def RandomStrategy (f : Nat → Nat) : Strategy Boxes where
  new := fun _ => make_boxes f
  next_index := fun st _ => vecPop st

/-- The `for _ in 0..NUM_PICKS` loop of `run_single`, with the remaining
pick budget explicit: draw the next index from the strategy, read
`boxes[next_index]`, succeed if it holds `index`, otherwise continue with
`last_inside = Some(found)`. -/
def runPicks {σ : Type} (S : Strategy σ) (index : Nat) (boxes : Boxes) :
    Nat → σ → Option Nat → Option Bool
  | 0, _, _ => some false
  | fuel + 1, st, last =>
    match S.next_index st last with
    | none => none
    | some (next_index, st') =>
      match boxes[next_index]? with
      | none => none
      | some found =>
        if found = index then some true
        else runPicks S index boxes fuel st' (some found)

/-- `fn run_single<S: Strategy>(index, boxes) -> bool`. -/
def run_single {σ : Type} (S : Strategy σ) (index : Nat) (boxes : Boxes) :
    Option Bool :=
  runPicks S index boxes NUM_PICKS (S.new index) none

/-- The short-circuiting `(0..NUM_BOXES).all(...)` of `run_all`, over the
remaining searcher indices.  `SF i` is the strategy instance searcher `i`
constructs (for `RandomStrategy` each searcher draws its own entropy). -/
def runAllFrom {σ : Type} (SF : Nat → Strategy σ) (boxes : Boxes) :
    List Nat → Option Bool
  | [] => some true
  | i :: rest =>
    match run_single (SF i) i boxes with
    | none => none
    | some false => some false
    | some true => runAllFrom SF boxes rest

/-- `fn run_all<S: Strategy>() -> bool`, with the trial's permutation made
explicit. -/
def run_all {σ : Type} (SF : Nat → Strategy σ) (boxes : Boxes) : Option Bool :=
  runAllFrom SF boxes (List.range NUM_BOXES)

/-- `fn run_sim<S: Strategy>() -> usize`: the rayon parallel loop over
`0..NUM_TRIES` with the atomic success counter.  `trial t` is the boolean
result of trial `t` (its `run_all` with that trial's own entropy), and
`order` is the order in which the parallel trials hit the counter. -/
def run_sim (trial : Nat → Bool) (order : List Nat) : Nat :=
  order.foldl (fun success t => if trial t then success + 1 else success) 0

/-- One application of the permutation stored in `boxes`: the contents of
box `x`. -/
def step (boxes : Boxes) (x : Nat) : Nat := boxes.getD x 0

/-- Length of the cycle of `boxes` through `i`: the least `k ≥ 1` with
`step^[k] i = i` (searched up to `boxes.length`; `0` if there is none). -/
def cycleLength (boxes : Boxes) (i : Nat) : Nat :=
  ((List.range' 1 boxes.length).find?
    (fun k => decide ((step boxes)^[k] i = i))).getD 0

/-- Instrumented pick loop: same result as `runPicks`, but also counts
how many picks (loop iterations touching the strategy) were performed. -/
def runPicksCount {σ : Type} (S : Strategy σ) (index : Nat) (boxes : Boxes) :
    Nat → σ → Option Nat → Option Bool × Nat
  | 0, _, _ => (some false, 0)
  | fuel + 1, st, last =>
    match S.next_index st last with
    | none => (none, 1)
    | some (next_index, st') =>
      match boxes[next_index]? with
      | none => (none, 1)
      | some found =>
        if found = index then (some true, 1)
        else
          let r := runPicksCount S index boxes fuel st' (some found)
          (r.1, r.2 + 1)

/-- Instrumented searcher loop: same result as `runAllFrom`, but also
counts how many searchers were evaluated. -/
def runAllFromCount {σ : Type} (SF : Nat → Strategy σ) (boxes : Boxes) :
    List Nat → Option Bool × Nat
  | [] => (some true, 0)
  | i :: rest =>
    match run_single (SF i) i boxes with
    | none => (none, 1)
    | some false => (some false, 1)
    | some true =>
      let r := runAllFromCount SF boxes rest
      (r.1, r.2 + 1)

/-- The indices returned by `n` successive `next_index` calls of a
strategy, threading the state; `none` if one of the calls panics.  (The
Random strategy ignores the `last_inside` argument, so `none` is passed to
each call.) -/
def nextIndexTrace {σ : Type} (S : Strategy σ) : σ → Nat → Option (List Nat)
  | _, 0 => some []
  | st, n + 1 =>
    match S.next_index st none with
    | none => none
    | some (i, st') => (nextIndexTrace S st' n).map (fun tr => i :: tr)

/-- `RandomStrategy` unfolded to its constructor form. -/
theorem RandomStrategy_mk (f : Nat → Nat) :
    RandomStrategy f =
      Strategy.mk (fun _ => make_boxes f) (fun st _ => vecPop st) := rfl

/-- A fresh Random searcher's state is the queue built by `make_boxes`. -/
theorem RandomStrategy_new (f : Nat → Nat) (index : Nat) :
    (RandomStrategy f).new index = make_boxes f := by
  rw [RandomStrategy_mk]

/-! ## Generic lemmas about the pick loop -/

/-- A run that succeeds within `p` picks also succeeds within any larger
budget `q`: the loop proceeds through exactly the same picks until the
early `return true`. -/
theorem runPicks_mono {σ : Type} (S : Strategy σ) (index : Nat) (boxes : Boxes) :
    ∀ p q st last, p ≤ q →
      runPicks S index boxes p st last = some true →
      runPicks S index boxes q st last = some true := by
  intro p
  induction p with
  | zero => intro q st last _ h; simp [runPicks] at h
  | succ p ih =>
    intro q st last hpq h
    obtain ⟨q, rfl⟩ : ∃ q', q = q' + 1 := ⟨q - 1, by omega⟩
    rw [runPicks] at h ⊢
    cases hnext : S.next_index st last with
    | none => simp [hnext] at h
    | some v =>
      obtain ⟨ni, st'⟩ := v
      simp only [hnext] at h ⊢
      cases hget : boxes[ni]? with
      | none => simp [hget] at h
      | some found =>
        simp only [hget] at h ⊢
        by_cases hf : found = index
        · simp [hf]
        · simp only [if_neg hf] at h ⊢
          exact ih q st' (some found) (by omega) h

/-- The short-circuiting searcher loop equals the full conjunction, as
long as no searcher in the list panics. -/
theorem runAllFrom_eq_all {σ : Type} (SF : Nat → Strategy σ) (boxes : Boxes) :
    ∀ l : List Nat, (∀ i ∈ l, run_single (SF i) i boxes ≠ none) →
      runAllFrom SF boxes l =
        some (l.all fun i => (run_single (SF i) i boxes).getD false) := by
  intro l
  induction l with
  | nil => intro _; rfl
  | cons i rest ih =>
    intro h
    rw [runAllFrom]
    cases hr : run_single (SF i) i boxes with
    | none => exact absurd hr (h i (by simp))
    | some b =>
      cases b with
      | false => simp [hr]
      | true =>
        rw [ih (fun j hj => h j (by simp [hj]))]
        simp [hr]

/-! ## C5: Loop strategy next_index behaviour -/

/-- C5: for every searcher index `i`, the Loop strategy's `next_index`
returns `i` on the first call (`last_inside = None`), and on every
subsequent call returns exactly the contents revealed by the previous
pick, leaving the state unchanged. -/
theorem loop_next_index_spec :
    ∀ i : Nat, LoopStrategy.next_index (LoopStrategy.new i) none =
        some (i, LoopStrategy.new i) ∧
      ∀ st last_inside : Nat,
        LoopStrategy.next_index st (some last_inside) = some (last_inside, st) :=
  fun _ => ⟨rfl, fun _ _ => rfl⟩

/-! ## C6: monotonicity in the pick budget (Loop strategy) -/

/-- C6: for a fixed permutation `boxes` and searcher `index`, the
Loop-strategy single-searcher run is monotone in the pick budget: success
within `p1` picks implies success within any `p2 ≥ p1` picks. -/
theorem loop_budget_monotone (boxes : Boxes) (index p1 p2 : Nat)
    (hle : p1 ≤ p2)
    (h : runPicks LoopStrategy index boxes p1 (LoopStrategy.new index) none =
      some true) :
    runPicks LoopStrategy index boxes p2 (LoopStrategy.new index) none =
      some true :=
  runPicks_mono LoopStrategy index boxes p1 p2 _ _ hle h

/-- Witness for C6: searcher 0 on the swap permutation `[1, 0]` succeeds
with budget 2, hence also with budget 3. -/
theorem loop_budget_monotone_witness :
    runPicks LoopStrategy 0 [1, 0] 3 (LoopStrategy.new 0) none = some true :=
  loop_budget_monotone [1, 0] 0 2 3 (by decide) (by decide)

/-! ## C3: short-circuit trial equals the conjunction of searchers -/

/-- C3: for every permutation `boxes` and every family of strategy
instances, the short-circuiting `run_all` returns the same boolean as
evaluating `run_single` for every searcher `0..NUM_BOXES-1` and conjoining
the results with logical AND — provided every searcher's run returns a
boolean (does not panic). -/
theorem run_all_eq_and_of_searchers {σ : Type} (SF : Nat → Strategy σ)
    (boxes : Boxes)
    (h : ∀ i ∈ List.range NUM_BOXES, run_single (SF i) i boxes ≠ none) :
    run_all SF boxes =
      some ((List.range NUM_BOXES).all
        fun i => (run_single (SF i) i boxes).getD false) :=
  runAllFrom_eq_all SF boxes (List.range NUM_BOXES) h

/-- Witness for C3: on the identity permutation every Loop searcher finds
itself on the first pick, so the trial equals the full conjunction. -/
theorem run_all_eq_and_of_searchers_witness :
    run_all (fun _ => LoopStrategy) (List.range NUM_BOXES) =
      some ((List.range NUM_BOXES).all
        fun i => (run_single LoopStrategy i (List.range NUM_BOXES)).getD false) :=
  run_all_eq_and_of_searchers (fun _ => LoopStrategy) (List.range NUM_BOXES)
    (by decide)

/-! ## C9: every trial terminates within its bounds -/

/-- The instrumented pick loop agrees with `runPicks` and performs at most
`fuel` picks. -/
theorem runPicksCount_spec {σ : Type} (S : Strategy σ) (index : Nat)
    (boxes : Boxes) :
    ∀ fuel st last,
      (runPicksCount S index boxes fuel st last).1 =
        runPicks S index boxes fuel st last ∧
      (runPicksCount S index boxes fuel st last).2 ≤ fuel := by
  intro fuel
  induction fuel with
  | zero => intro st last; exact ⟨rfl, Nat.le_refl 0⟩
  | succ fuel ih =>
    intro st last
    rw [runPicksCount, runPicks]
    cases S.next_index st last with
    | none => exact ⟨rfl, by dsimp only; omega⟩
    | some v =>
      obtain ⟨ni, st'⟩ := v
      dsimp only
      cases boxes[ni]? with
      | none => exact ⟨rfl, by dsimp only; omega⟩
      | some found =>
        dsimp only
        by_cases hf : found = index
        · simp only [if_pos hf]
          exact ⟨trivial, by omega⟩
        · simp only [if_neg hf]
          obtain ⟨h1, h2⟩ := ih st' (some found)
          exact ⟨h1, by omega⟩

/-- The instrumented searcher loop agrees with `runAllFrom` and evaluates
at most `l.length` searchers. -/
theorem runAllFromCount_spec {σ : Type} (SF : Nat → Strategy σ) (boxes : Boxes) :
    ∀ l : List Nat,
      (runAllFromCount SF boxes l).1 = runAllFrom SF boxes l ∧
      (runAllFromCount SF boxes l).2 ≤ l.length := by
  intro l
  induction l with
  | nil => exact ⟨rfl, Nat.le_refl 0⟩
  | cons i rest ih =>
    rw [runAllFromCount, runAllFrom]
    cases run_single (SF i) i boxes with
    | none => exact ⟨rfl, by simp⟩
    | some b =>
      cases b with
      | false => exact ⟨rfl, by simp⟩
      | true =>
        obtain ⟨h1, h2⟩ := ih
        refine ⟨h1, ?_⟩
        simpa using Nat.succ_le_succ h2

/-- C9: every trial terminates within its bounds — for every permutation,
every strategy family and every searcher state, `run_single` performs at
most `NUM_PICKS` picks and `run_all` evaluates at most `NUM_BOXES`
searchers, the instrumented runs agreeing with the (total, `Option`-valued)
functions `run_single` and `run_all`. -/
theorem trials_terminate {σ : Type} (S : Strategy σ) (SF : Nat → Strategy σ)
    (index : Nat) (boxes : Boxes) :
    (runPicksCount S index boxes NUM_PICKS (S.new index) none).1 =
      run_single S index boxes ∧
    (runPicksCount S index boxes NUM_PICKS (S.new index) none).2 ≤ NUM_PICKS ∧
    (runAllFromCount SF boxes (List.range NUM_BOXES)).1 = run_all SF boxes ∧
    (runAllFromCount SF boxes (List.range NUM_BOXES)).2 ≤ NUM_BOXES := by
  obtain ⟨h1, h2⟩ := runPicksCount_spec S index boxes NUM_PICKS (S.new index) none
  obtain ⟨h3, h4⟩ := runAllFromCount_spec SF boxes (List.range NUM_BOXES)
  exact ⟨h1, h2, h3, by simpa using h4⟩

/-! ## C7: the experiment driver counts successful trials -/

/-- The atomic-counter fold starting from `n` adds the number of
successful trials in the executed order. -/
theorem run_sim_foldl (trial : Nat → Bool) :
    ∀ (order : List Nat) (n : Nat),
      order.foldl (fun success t => if trial t then success + 1 else success) n =
        n + order.countP (fun t => trial t) := by
  intro order
  induction order with
  | nil => intro n; simp
  | cons t rest ih =>
    intro n
    rw [List.foldl_cons, List.countP_cons, ih]
    cases ht : trial t
    · simp [ht]
    · simp only [ht, if_true]
      omega

/-- C7: the experiment driver over `NUM_TRIES` trials returns exactly the
number of trials whose result is `true`, whatever order the parallel
trials complete in; in particular when every trial succeeds the returned
count is `NUM_TRIES`. -/
theorem run_sim_counts (trial : Nat → Bool) (order : List Nat)
    (horder : order.Perm (List.range NUM_TRIES)) :
    run_sim trial order =
      ((List.range NUM_TRIES).filter (fun t => trial t)).length ∧
    ((∀ t, trial t = true) → run_sim trial order = NUM_TRIES) := by
  have hcount : run_sim trial order =
      (List.range NUM_TRIES).countP (fun t => trial t) := by
    rw [run_sim, run_sim_foldl, Nat.zero_add]
    exact horder.countP_eq (fun t => trial t)
  constructor
  · rw [hcount, List.countP_eq_length_filter]
  · intro hall
    rw [hcount]
    have : (List.range NUM_TRIES).countP (fun t => trial t) =
        (List.range NUM_TRIES).length :=
      List.countP_eq_length.mpr (fun t _ => by simp [hall t])
    rw [this, List.length_range]

/-- Witness for C7: the always-successful stub trial, with the trials
completing in their natural order, yields success count `NUM_TRIES`. -/
theorem run_sim_counts_witness :
    run_sim (fun _ => true) (List.range NUM_TRIES) = NUM_TRIES :=
  (run_sim_counts (fun _ => true) (List.range NUM_TRIES)
    (List.Perm.refl _)).2 (fun _ => rfl)

/-! ## C2: make_boxes produces a permutation of 0..NUM_BOXES -/

/-- Moving the element at position `m` to the head while writing `a` into
position `m` is a permutation of pushing `a` on the front. -/
theorem head_set_perm :
    ∀ (t : List Nat) (m : Nat) (hm : m < t.length) (a : Nat),
      (t.get ⟨m, hm⟩ :: t.set m a).Perm (a :: t) := by
  intro t
  induction t with
  | nil => intro m hm a; simp at hm
  | cons b t ih =>
    intro m hm a
    cases m with
    | zero => exact List.Perm.swap a b t
    | succ k =>
      have hk : k < t.length := by simpa using hm
      exact ((List.Perm.swap b (t.get ⟨k, hk⟩) (t.set k a)).trans
        (List.Perm.cons b (ih k hk a))).trans (List.Perm.swap a b t)

/-- Exchanging the entries at two (in-bounds) positions is a permutation
of the original list. -/
theorem set_set_swap_perm :
    ∀ (l : Boxes) (i j : Nat) (hi : i < l.length) (hj : j < l.length),
      ((l.set i (l.get ⟨j, hj⟩)).set j (l.get ⟨i, hi⟩)).Perm l := by
  intro l
  induction l with
  | nil => intro i j hi _; simp at hi
  | cons x t ih =>
    intro i j hi hj
    cases i with
    | zero =>
      cases j with
      | zero => exact List.Perm.refl _
      | succ m => exact head_set_perm t m (by simpa using hj) x
    | succ s =>
      cases j with
      | zero => exact head_set_perm t s (by simpa using hi) x
      | succ m =>
        exact List.Perm.cons x (ih s m (by simpa using hi) (by simpa using hj))

/-- `swapList` permutes the list, whatever the indices. -/
theorem swapList_perm (l : Boxes) (i j : Nat) : (swapList l i j).Perm l := by
  unfold swapList
  cases hi : l[i]? with
  | none => exact List.Perm.refl l
  | some a =>
    cases hj : l[j]? with
    | none => exact List.Perm.refl l
    | some b =>
      obtain ⟨hilt, ha⟩ := List.getElem?_eq_some.mp hi
      obtain ⟨hjlt, hb⟩ := List.getElem?_eq_some.mp hj
      have hga : l.get ⟨i, hilt⟩ = a := by simpa using ha
      have hgb : l.get ⟨j, hjlt⟩ = b := by simpa using hb
      rw [← hga, ← hgb]
      exact set_set_swap_perm l i j hilt hjlt

/-- Every stage of the Fisher-Yates loop permutes the list. -/
theorem shuffleAux_perm (f : Nat → Nat) :
    ∀ (n : Nat) (l : Boxes), (shuffleAux f n l).Perm l := by
  intro n
  induction n with
  | zero => intro l; exact List.Perm.refl l
  | succ i ih =>
    intro l
    rw [shuffleAux]
    exact (ih _).trans (swapList_perm _ _ _)

/-- C2: every call to `make_boxes` (that is, for every entropy source `f`)
returns a permutation of `0..NUM_BOXES`: a sequence of length `NUM_BOXES`
in which each value in `[0, NUM_BOXES)` appears exactly once. -/
theorem make_boxes_bijection (f : Nat → Nat) :
    (make_boxes f).Perm (List.range NUM_BOXES) ∧
    (make_boxes f).length = NUM_BOXES ∧
    ∀ v, v < NUM_BOXES → (make_boxes f).count v = 1 := by
  have hperm : (make_boxes f).Perm (List.range NUM_BOXES) :=
    shuffleAux_perm f _ _
  refine ⟨hperm, ?_, ?_⟩
  · rw [hperm.length_eq, List.length_range]
  · intro v hv
    rw [hperm.count_eq]
    exact List.count_eq_one_of_mem (List.nodup_range NUM_BOXES) (List.mem_range.mpr hv)

/-- Witness for C2: with the trivial entropy source, value `0` indeed
appears exactly once among the boxes. -/
theorem make_boxes_bijection_witness :
    (make_boxes (fun k => k)).count 0 = 1 :=
  (make_boxes_bijection (fun k => k)).2.2 0 (by decide)

/-! ## C4: the Random strategy never repeats an index and never fails -/

/-- Popping `n ≤ length` times from a duplicate-free queue always
succeeds and yields `n` pairwise distinct indices, all from the queue. -/
theorem randomTrace_spec (f : Nat → Nat) :
    ∀ (n : Nat) (q : Boxes), q.Nodup → n ≤ q.length →
      ∃ tr, nextIndexTrace (RandomStrategy f) q n = some tr ∧
        tr.Nodup ∧ tr.length = n ∧ ∀ x ∈ tr, x ∈ q := by
  intro n
  induction n with
  | zero => intro q _ _; exact ⟨[], rfl, List.nodup_nil, rfl, by simp⟩
  | succ n ih =>
    intro q hnd hlen
    have hq : q ≠ [] := by
      intro h; rw [h] at hlen; simp at hlen
    have hpop : vecPop q = some (q.getLast hq, q.dropLast) := by
      rw [vecPop, List.getLast?_eq_getLast q hq]
    have hndrop : q.dropLast.Nodup :=
      List.Nodup.sublist (List.dropLast_sublist q) hnd
    have hlendrop : n ≤ q.dropLast.length := by
      rw [List.length_dropLast]; omega
    obtain ⟨tr, htr, htrnd, htrlen, htrmem⟩ := ih q.dropLast hndrop hlendrop
    refine ⟨q.getLast hq :: tr, ?_, ?_, by simp [htrlen], ?_⟩
    · have hni : (RandomStrategy f).next_index q none = vecPop q := rfl
      rw [nextIndexTrace, hni, hpop]
      dsimp only
      rw [htr]
      rfl
    · refine List.nodup_cons.mpr ⟨?_, htrnd⟩
      intro hmem
      have hin : q.getLast hq ∈ q.dropLast := htrmem _ hmem
      have hsplit : q.dropLast ++ [q.getLast hq] = q :=
        List.dropLast_append_getLast hq
      have hdnd : (q.dropLast ++ [q.getLast hq]).Nodup := by
        rw [hsplit]; exact hnd
      obtain ⟨-, -, hdisj⟩ := List.nodup_append.mp hdnd
      exact hdisj hin (by simp)
    · intro x hx
      rcases List.mem_cons.mp hx with h | h
      · rw [h]; exact List.getLast_mem hq
      · exact List.mem_of_mem_dropLast (htrmem x h)

/-- C4: with `NUM_PICKS ≤ NUM_BOXES`, one searcher's Random-strategy run
makes up to `NUM_PICKS` calls to `next_index`, no returned box index
repeats, and the pop from the pick queue never fails.  (`next_index`
ignores the `last_inside` argument, so the trace with `none` is the trace
of any run.) -/
theorem random_no_repeat_no_fail (f : Nat → Nat) (index n : Nat)
    (hn : n ≤ NUM_PICKS) :
    NUM_PICKS ≤ NUM_BOXES ∧
    (∀ (st : Boxes) (last : Option Nat),
      (RandomStrategy f).next_index st last =
        (RandomStrategy f).next_index st none) ∧
    ∃ tr, nextIndexTrace (RandomStrategy f) ((RandomStrategy f).new index) n =
        some tr ∧ tr.Nodup ∧ tr.length = n := by
  have hperm : (make_boxes f).Perm (List.range NUM_BOXES) :=
    shuffleAux_perm f _ _
  have hnd : (make_boxes f).Nodup :=
    hperm.nodup_iff.mpr (List.nodup_range NUM_BOXES)
  have hlen : (make_boxes f).length = NUM_BOXES := by
    rw [hperm.length_eq, List.length_range]
  have hnb : n ≤ (make_boxes f).length := by
    rw [hlen]; exact Nat.le_trans hn (by decide)
  obtain ⟨tr, h1, h2, h3, -⟩ := randomTrace_spec f n (make_boxes f) hnd hnb
  rw [RandomStrategy_new]
  exact ⟨by decide, fun _ _ => rfl, tr, h1, h2, h3⟩

/-- Witness for C4: searcher 0 with a concrete entropy source takes all
`NUM_PICKS` picks without repetition or failure. -/
theorem random_no_repeat_no_fail_witness :
    NUM_PICKS ≤ NUM_BOXES ∧
    (∀ (st : Boxes) (last : Option Nat),
      (RandomStrategy (fun k => k)).next_index st last =
        (RandomStrategy (fun k => k)).next_index st none) ∧
    ∃ tr, nextIndexTrace (RandomStrategy (fun k => k))
        ((RandomStrategy (fun k => k)).new 0) NUM_PICKS =
        some tr ∧ tr.Nodup ∧ tr.length = NUM_PICKS :=
  random_no_repeat_no_fail (fun k => k) 0 NUM_PICKS (Nat.le_refl _)

/-! ## C10: array accesses in run_single are always in bounds -/

/-- In a permutation of `0..NUM_BOXES`, every stored value is a valid
index. -/
theorem boxes_elem_lt (boxes : Boxes)
    (hperm : boxes.Perm (List.range NUM_BOXES)) :
    ∀ x ∈ boxes, x < boxes.length := by
  intro x hx
  rw [hperm.length_eq, List.length_range]
  exact List.mem_range.mp (hperm.mem_iff.mp hx)

/-- The Loop-strategy pick loop never panics: the searcher's start index
and every revealed content are valid indices. -/
theorem runPicks_loop_ne_none (boxes : Boxes) (i : Nat)
    (hb : ∀ x ∈ boxes, x < boxes.length) :
    ∀ (fuel : Nat) (st : Nat) (last : Option Nat), st < boxes.length →
      (∀ v, last = some v → v < boxes.length) →
      runPicks LoopStrategy i boxes fuel st last ≠ none := by
  intro fuel
  induction fuel with
  | zero => intro st last _ _; simp [runPicks]
  | succ fuel ih =>
    intro st last hst hlast
    rw [runPicks]
    cases last with
    | none =>
      have hni : LoopStrategy.next_index st none = some (st, st) := rfl
      rw [hni]
      have hget : boxes[st]? = some boxes[st] :=
        List.getElem?_eq_some.mpr ⟨hst, rfl⟩
      dsimp only
      rw [hget]
      dsimp only
      by_cases hf : boxes[st] = i
      · simp [hf]
      · simp only [if_neg hf]
        exact ih st (some boxes[st]) hst (fun v hv => by
          rw [← Option.some.inj hv]; exact hb _ (List.getElem_mem hst))
    | some w =>
      have hw : w < boxes.length := hlast w rfl
      have hni : LoopStrategy.next_index st (some w) = some (w, st) := rfl
      rw [hni]
      have hget : boxes[w]? = some boxes[w] :=
        List.getElem?_eq_some.mpr ⟨hw, rfl⟩
      dsimp only
      rw [hget]
      dsimp only
      by_cases hf : boxes[w] = i
      · simp [hf]
      · simp only [if_neg hf]
        exact ih st (some boxes[w]) hst (fun v hv => by
          rw [← Option.some.inj hv]; exact hb _ (List.getElem_mem hw))

/-- The Random-strategy pick loop never panics while the pick budget does
not exceed the queue length and the queue holds only valid indices. -/
theorem runPicks_random_ne_none (boxes : Boxes) (f : Nat → Nat) (i : Nat) :
    ∀ (fuel : Nat) (q : Boxes) (last : Option Nat),
      (∀ x ∈ q, x < boxes.length) → fuel ≤ q.length →
      runPicks (RandomStrategy f) i boxes fuel q last ≠ none := by
  intro fuel
  induction fuel with
  | zero => intro q last _ _; simp [runPicks]
  | succ fuel ih =>
    intro q last hq hlen
    have hqne : q ≠ [] := by
      intro h; rw [h] at hlen; simp at hlen
    have hpop : vecPop q = some (q.getLast hqne, q.dropLast) := by
      rw [vecPop, List.getLast?_eq_getLast q hqne]
    have hni : (RandomStrategy f).next_index q last = vecPop q := rfl
    rw [runPicks, hni, hpop]
    have hlt : q.getLast hqne < boxes.length := hq _ (List.getLast_mem hqne)
    have hget : boxes[q.getLast hqne]? = some (boxes[q.getLast hqne]) :=
      List.getElem?_eq_some.mpr ⟨hlt, rfl⟩
    dsimp only
    rw [hget]
    dsimp only
    by_cases hf : boxes[q.getLast hqne] = i
    · simp [hf]
    · simp only [if_neg hf]
      exact ih q.dropLast _
        (fun x hx => hq x (List.mem_of_mem_dropLast hx))
        (by rw [List.length_dropLast]; omega)

/-- C10: for every permutation of `0..NUM_BOXES` and both strategies,
every box index drawn by `run_single` is in bounds and the run never
panics. -/
theorem run_single_no_panic (boxes : Boxes) (f : Nat → Nat) (i : Nat)
    (hperm : boxes.Perm (List.range NUM_BOXES)) (hi : i < NUM_BOXES) :
    run_single LoopStrategy i boxes ≠ none ∧
    run_single (RandomStrategy f) i boxes ≠ none := by
  have hlen : boxes.length = NUM_BOXES := by
    rw [hperm.length_eq, List.length_range]
  have hb : ∀ x ∈ boxes, x < boxes.length := boxes_elem_lt boxes hperm
  have hqperm : (make_boxes f).Perm (List.range NUM_BOXES) :=
    shuffleAux_perm f _ _
  constructor
  · rw [run_single]
    have hnewloop : LoopStrategy.new i = i := rfl
    rw [hnewloop]
    exact runPicks_loop_ne_none boxes i hb NUM_PICKS i none
      (by rw [hlen]; exact hi) (fun v hv => Option.noConfusion hv)
  · rw [run_single, RandomStrategy_new]
    exact runPicks_random_ne_none boxes f i NUM_PICKS (make_boxes f) none
      (fun x hx => by
        rw [hlen]; exact List.mem_range.mp (hqperm.mem_iff.mp hx))
      (by rw [hqperm.length_eq, List.length_range]; decide)

/-- Witness for C10: searcher 0 on the identity permutation, with a
concrete entropy source for the Random queue. -/
theorem run_single_no_panic_witness :
    run_single LoopStrategy 0 (List.range NUM_BOXES) ≠ none ∧
    run_single (RandomStrategy (fun k => k)) 0 (List.range NUM_BOXES) ≠ none :=
  run_single_no_panic (List.range NUM_BOXES) (fun k => k) 0
    (List.Perm.refl _) (by decide)

/-! ## C1: Loop success is equivalent to lying on a short cycle -/

/-- `find?` on an ascending block of naturals returns the least match. -/
theorem find?_range'_spec (p : Nat → Bool) :
    ∀ (n s k : Nat), (List.range' s n).find? p = some k →
      p k = true ∧ s ≤ k ∧ k < s + n ∧ ∀ j, s ≤ j → j < k → p j = false := by
  intro n
  induction n with
  | zero => intro s k h; simp at h
  | succ n ih =>
    intro s k h
    rw [List.range'_succ] at h
    by_cases hp : p s
    · rw [List.find?_cons_of_pos _ hp] at h
      obtain rfl := Option.some.inj h
      exact ⟨hp, Nat.le_refl _, by omega, fun j hj1 hj2 => by omega⟩
    · rw [List.find?_cons_of_neg _ hp] at h
      obtain ⟨h1, h2, h3, h4⟩ := ih (s + 1) k h
      refine ⟨h1, by omega, by omega, fun j hj1 hj2 => ?_⟩
      by_cases hjs : j = s
      · rw [hjs]; exact Bool.eq_false_iff.mpr hp
      · exact h4 j (by omega) hj2

/-- If some element of an ascending block satisfies `p`, `find?` finds
one. -/
theorem find?_range'_of_mem (p : Nat → Bool) (n s k : Nat)
    (hk : k ∈ List.range' s n) (hp : p k = true) :
    ∃ c, (List.range' s n).find? p = some c := by
  cases h : (List.range' s n).find? p with
  | none => exact absurd hp (by simpa using List.find?_eq_none.mp h k hk)
  | some c => exact ⟨c, rfl⟩

/-- Following one box keeps the index in bounds. -/
theorem step_lt (boxes : Boxes) (hb : ∀ x ∈ boxes, x < boxes.length) :
    ∀ x, x < boxes.length → step boxes x < boxes.length := by
  intro x hx
  rw [step, List.getD_eq_getElem boxes 0 hx]
  exact hb _ (List.getElem_mem hx)

/-- All iterates of the box-following map stay in bounds. -/
theorem step_iterate_lt (boxes : Boxes) (hb : ∀ x ∈ boxes, x < boxes.length)
    (i : Nat) (hi : i < boxes.length) :
    ∀ t, (step boxes)^[t] i < boxes.length := by
  intro t
  induction t with
  | zero => exact hi
  | succ t ih =>
    rw [Function.iterate_succ_apply']
    exact step_lt boxes hb _ ih

/-- On a duplicate-free list the box-following map is injective on valid
indices. -/
theorem step_inj (boxes : Boxes) (hnd : boxes.Nodup) :
    ∀ x y, x < boxes.length → y < boxes.length →
      step boxes x = step boxes y → x = y := by
  intro x y hx hy h
  rw [step, step, List.getD_eq_getElem boxes 0 hx,
    List.getD_eq_getElem boxes 0 hy] at h
  exact (List.Nodup.getElem_inj_iff hnd).mp h

/-- Iterates of the box-following map cancel on valid indices. -/
theorem step_iterate_cancel (boxes : Boxes) (hnd : boxes.Nodup)
    (hb : ∀ x ∈ boxes, x < boxes.length) :
    ∀ t x y, x < boxes.length → y < boxes.length →
      (step boxes)^[t] x = (step boxes)^[t] y → x = y := by
  intro t
  induction t with
  | zero => intro x y _ _ h; exact h
  | succ t ih =>
    intro x y hx hy h
    rw [Function.iterate_succ_apply, Function.iterate_succ_apply] at h
    exact step_inj boxes hnd x y hx hy
      (ih _ _ (step_lt boxes hb x hx) (step_lt boxes hb y hy) h)

/-- Pigeonhole: every valid start returns to itself within
`boxes.length` steps. -/
theorem exists_return_time (boxes : Boxes) (hnd : boxes.Nodup)
    (hb : ∀ x ∈ boxes, x < boxes.length) (i : Nat) (hi : i < boxes.length) :
    ∃ k, 1 ≤ k ∧ k ≤ boxes.length ∧ (step boxes)^[k] i = i := by
  have key : ∀ a b, a < b → b < boxes.length + 1 →
      (step boxes)^[a] i = (step boxes)^[b] i →
      ∃ k, 1 ≤ k ∧ k ≤ boxes.length ∧ (step boxes)^[k] i = i := by
    intro a b hab hb1 heq
    have hsplit : a + (b - a) = b := by omega
    have : (step boxes)^[a] i = (step boxes)^[a] ((step boxes)^[b - a] i) := by
      rw [← Function.iterate_add_apply, hsplit]
      exact heq
    have hfix : i = (step boxes)^[b - a] i :=
      step_iterate_cancel boxes hnd hb a i _ hi
        (step_iterate_lt boxes hb i hi (b - a)) this
    exact ⟨b - a, by omega, by omega, hfix.symm⟩
  have hmap : ∀ a ∈ Finset.range (boxes.length + 1),
      (step boxes)^[a] i ∈ Finset.range boxes.length := fun a _ =>
    Finset.mem_range.mpr (step_iterate_lt boxes hb i hi a)
  have hcard : (Finset.range boxes.length).card <
      (Finset.range (boxes.length + 1)).card := by simp
  obtain ⟨a, ha, b, hbmem, hab, heq⟩ :=
    Finset.exists_ne_map_eq_of_card_lt_of_maps_to hcard hmap
  rcases Nat.lt_or_ge a b with h | h
  · exact key a b h (Finset.mem_range.mp hbmem) heq
  · have hba : b < a := by omega
    exact key b a hba (Finset.mem_range.mp ha) heq.symm

/-- Under the permutation invariant, `cycleLength` is the least positive
return time of the box-following map, and it lies in
`[1, boxes.length]`. -/
theorem cycleLength_spec (boxes : Boxes) (hnd : boxes.Nodup)
    (hb : ∀ x ∈ boxes, x < boxes.length) (i : Nat) (hi : i < boxes.length) :
    1 ≤ cycleLength boxes i ∧ cycleLength boxes i ≤ boxes.length ∧
    (step boxes)^[cycleLength boxes i] i = i ∧
    ∀ j, 1 ≤ j → j < cycleLength boxes i → (step boxes)^[j] i ≠ i := by
  obtain ⟨k, hk1, hk2, hk3⟩ := exists_return_time boxes hnd hb i hi
  have hkmem : k ∈ List.range' 1 boxes.length :=
    List.mem_range'_1.mpr ⟨hk1, by omega⟩
  obtain ⟨c, hc⟩ := find?_range'_of_mem
    (fun k => decide ((step boxes)^[k] i = i)) boxes.length 1 k hkmem
    (by simp [hk3])
  obtain ⟨hp, h1, h2, hmin⟩ := find?_range'_spec _ _ _ _ hc
  have hcl : cycleLength boxes i = c := by
    rw [cycleLength, hc, Option.getD_some]
  rw [hcl]
  refine ⟨h1, by omega, of_decide_eq_true hp, fun j hj1 hj2 => ?_⟩
  exact of_decide_eq_false (hmin j hj1 hj2)

/-- Mid-run characterisation of the Loop pick loop: after `t` picks the
last revealed content is `step^[t] i`, and the remaining `m` picks succeed
exactly when some iterate in `(t, t+m]` returns to `i`. -/
theorem runPicks_loop_iff (boxes : Boxes) (i : Nat)
    (hb : ∀ x ∈ boxes, x < boxes.length) (hi : i < boxes.length) :
    ∀ m t, runPicks LoopStrategy i boxes m i (some ((step boxes)^[t] i)) =
        some true ↔
      ∃ k, t + 1 ≤ k ∧ k ≤ t + m ∧ (step boxes)^[k] i = i := by
  intro m
  induction m with
  | zero =>
    intro t
    constructor
    · intro h; simp [runPicks] at h
    · rintro ⟨k, h1, h2, -⟩; omega
  | succ m ih =>
    intro t
    have hlt : (step boxes)^[t] i < boxes.length := step_iterate_lt boxes hb i hi t
    have hni : LoopStrategy.next_index i (some ((step boxes)^[t] i)) =
        some ((step boxes)^[t] i, i) := rfl
    have hget : boxes[(step boxes)^[t] i]? = some ((step boxes)^[t + 1] i) := by
      rw [List.getElem?_eq_some]
      refine ⟨hlt, ?_⟩
      rw [Function.iterate_succ_apply', step, List.getD_eq_getElem boxes 0 hlt]
    rw [runPicks, hni]
    dsimp only
    rw [hget]
    dsimp only
    by_cases hret : (step boxes)^[t + 1] i = i
    · simp only [if_pos hret]
      constructor
      · intro _; exact ⟨t + 1, Nat.le_refl _, by omega, hret⟩
      · intro _; trivial
    · simp only [if_neg hret]
      rw [ih (t + 1)]
      constructor
      · rintro ⟨k, h1, h2, h3⟩; exact ⟨k, by omega, by omega, h3⟩
      · rintro ⟨k, h1, h2, h3⟩
        refine ⟨k, ?_, by omega, h3⟩
        by_cases hk : k = t + 1
        · rw [hk] at h3; exact absurd h3 hret
        · omega

/-- From the start of a run: the Loop searcher succeeds within `m` picks
exactly when some iterate in `[1, m]` returns to `i`. -/
theorem runPicks_loop_start_iff (boxes : Boxes) (i : Nat)
    (hb : ∀ x ∈ boxes, x < boxes.length) (hi : i < boxes.length) :
    ∀ m, runPicks LoopStrategy i boxes m i none = some true ↔
      ∃ k, 1 ≤ k ∧ k ≤ m ∧ (step boxes)^[k] i = i := by
  intro m
  cases m with
  | zero =>
    constructor
    · intro h; simp [runPicks] at h
    · rintro ⟨k, h1, h2, -⟩; omega
  | succ m =>
    have hni : LoopStrategy.next_index i none = some (i, i) := rfl
    have hget : boxes[i]? = some ((step boxes)^[1] i) := by
      rw [List.getElem?_eq_some]
      refine ⟨hi, ?_⟩
      rw [Function.iterate_one, step, List.getD_eq_getElem boxes 0 hi]
    rw [runPicks, hni]
    dsimp only
    rw [hget]
    dsimp only
    by_cases hret : (step boxes)^[1] i = i
    · simp only [if_pos hret]
      constructor
      · intro _; exact ⟨1, Nat.le_refl _, by omega, hret⟩
      · intro _; trivial
    · simp only [if_neg hret]
      rw [runPicks_loop_iff boxes i hb hi m 1]
      constructor
      · rintro ⟨k, h1, h2, h3⟩; exact ⟨k, by omega, by omega, h3⟩
      · rintro ⟨k, h1, h2, h3⟩
        refine ⟨k, ?_, by omega, h3⟩
        by_cases hk : k = 1
        · rw [hk] at h3; exact absurd h3 hret
        · omega

/-- C1: for every permutation of `0..NUM_BOXES` and every searcher
`i < NUM_BOXES`, the cycle of the permutation through `i` exists
(`cycleLength ≥ 1`), and `run_single` with the Loop strategy returns
`true` exactly when that cycle has length at most `NUM_PICKS`; the result
is a function of `(i, boxes)` alone, so re-running with the same
permutation yields the same result. -/
theorem loop_success_iff_short_cycle (boxes : Boxes) (i : Nat)
    (hperm : boxes.Perm (List.range NUM_BOXES)) (hi : i < NUM_BOXES) :
    1 ≤ cycleLength boxes i ∧
    (run_single LoopStrategy i boxes = some true ↔
      cycleLength boxes i ≤ NUM_PICKS) ∧
    run_single LoopStrategy i boxes = run_single LoopStrategy i boxes := by
  have hnd : boxes.Nodup := hperm.nodup_iff.mpr (List.nodup_range NUM_BOXES)
  have hb : ∀ x ∈ boxes, x < boxes.length := boxes_elem_lt boxes hperm
  have hilt : i < boxes.length := by
    rw [hperm.length_eq, List.length_range]; exact hi
  obtain ⟨hc1, hc2, hc3, hcmin⟩ := cycleLength_spec boxes hnd hb i hilt
  refine ⟨hc1, ?_, rfl⟩
  have hnew : LoopStrategy.new i = i := rfl
  rw [run_single, hnew, runPicks_loop_start_iff boxes i hb hilt]
  constructor
  · rintro ⟨k, hk1, hk2, hk3⟩
    by_contra hgt
    exact hcmin k hk1 (by omega) hk3
  · intro hle
    exact ⟨cycleLength boxes i, hc1, hle, hc3⟩

/-- Witness for C1: searcher 0 on the identity permutation sits on a
cycle of length 1 and succeeds. -/
theorem loop_success_iff_short_cycle_witness :
    1 ≤ cycleLength (List.range NUM_BOXES) 0 ∧
    (run_single LoopStrategy 0 (List.range NUM_BOXES) = some true ↔
      cycleLength (List.range NUM_BOXES) 0 ≤ NUM_PICKS) ∧
    run_single LoopStrategy 0 (List.range NUM_BOXES) =
      run_single LoopStrategy 0 (List.range NUM_BOXES) :=
  loop_success_iff_short_cycle (List.range NUM_BOXES) 0
    (List.Perm.refl _) (by decide)
